import Mathlib

/-!
Shallow embedding of `src/mlx_benchmark/run_benchmark.py` (the process-isolated
measurement runner of the mlx-benchmark repository) and proofs about it.

Modelling conventions:
* Python dicts are insertion-ordered association lists; `dset` is dict
  assignment `d[k] = v` (overwrite in place, append at the end when the key is
  fresh), `aget` is lookup.
* `defaultdict(list)` appending (`d[k].append(v)`) is `append_time`.
* An operation's `run(framework, device, compile)` capability lives outside
  this file's source (operations.py); it is modelled as an oracle function
  from the operation and the call descriptor to the measured time, a rational
  number standing for the elapsed seconds.  In `run_processes` the oracle also
  takes the operation index and the trial index, since every trial is a fresh
  measurement.
* Durations are rationals (ℚ): Python floats stand for real measured seconds.
-/

/-- Device argument of an MLX call: `mx.gpu` or `mx.cpu`, whichever is the
default device at the moment `op.run(framework="mlx", ...)` is invoked
(`run` sets it with `mx.set_default_device` right before the call). -/
inductive MlxDevice where
  | gpu
  | cpu
deriving DecidableEq, Repr

/-- Device argument of a torch call: `torch.device("cpu" | "mps" | "cuda")`. -/
inductive TorchDevice where
  | cpu
  | mps
  | cuda
deriving DecidableEq, Repr

/-- One invocation of an operation's `run` capability, as issued by `run` in
run_benchmark.py: either an MLX call (with the active default device and the
`compile=` keyword) or a torch call (with the `device=` keyword). -/
inductive Call where
  | mlx (device : MlxDevice) (compiled : Bool)
  | torch (device : TorchDevice)
deriving DecidableEq, Repr

/-- An operation of the catalogue.  Modelled from the spec: the catalogue's
operation classes live in operations.py, which is not part of the analysed
source; per the spec an Operation's identity is (operation kind, parameter
string) and it exposes `type(op).__name__` and `op.args_str`. -/
structure Op where
  typeName : String
  args_str : String
deriving DecidableEq, Repr

/-- `op_name = type(op).__name__ + " / " + op.args_str` (run_benchmark.py,
line 70). -/
def op_label (op : Op) : String := op.typeName ++ " / " ++ op.args_str

/-- The Run Configuration: the five boolean CLI flags of run_benchmark.py. -/
structure Args where
  include_cpu : Bool
  include_mps : Bool
  include_mlx : Bool
  include_cuda : Bool
  compile : Bool
deriving DecidableEq, Repr

/-- Python dict assignment `d[k] = v` on an insertion-ordered association
list: overwrite in place if the key exists, append otherwise. -/
def dset {K V : Type} [DecidableEq K] : List (K × V) → K → V → List (K × V)
  | [], k, v => [(k, v)]
  | (k', v') :: rest, k, v =>
      if k' = k then (k, v) :: rest else (k', v') :: dset rest k v

/-- Python dict lookup `d[k]` (as an `Option`). -/
def aget {K V : Type} [DecidableEq K] : List (K × V) → K → Option V
  | [], _ => none
  | (k', v') :: rest, k => if k' = k then some v' else aget rest k

/-- `defaultdict` read: `d[k]` returning the default when the key is absent. -/
def agetD {K V : Type} [DecidableEq K] (d : List (K × V)) (k : K) (v₀ : V) : V :=
  (aget d k).getD v₀

/-- The nested `times` dict built by `run`: operation label ↦ backend key ↦
duration of this iteration. -/
abbrev Times : Type := List (String × List (String × ℚ))

/-- `times[op_name][key] = v` where `times = defaultdict(dict)`
(run_benchmark.py, line 69). -/
def times_set (times : Times) (opn k : String) (v : ℚ) : Times :=
  dset times opn (dset (agetD times opn []) k v)

/-- The single-iteration executor `run(op, args)` of run_benchmark.py
(lines 65-103), success path: measures one operation on every
framework/device combination enabled by `args`, in the source's order, and
returns the nested `times` dict.  `f` is the oracle for `op.run`; the queue
parameter is modelled separately by `run_queue`. -/
def run (op : Op) (args : Args) (f : Op → Call → ℚ) : Times :=
  let times : Times := []
  let op_name := op_label op
  let times :=
    if args.include_mlx then
      let times := times_set times op_name "mlx_gpu" (f op (Call.mlx MlxDevice.gpu false))
      let times :=
        if args.compile then
          times_set times op_name "mlx_gpu_compile" (f op (Call.mlx MlxDevice.gpu true))
        else times
      let times :=
        if args.include_cpu then
          times_set times op_name "mlx_cpu" (f op (Call.mlx MlxDevice.cpu false))
        else times
      times
    else times
  let times :=
    if args.include_cpu then
      times_set times op_name "cpu" (f op (Call.torch TorchDevice.cpu))
    else times
  let times :=
    if args.include_mps then
      times_set times op_name "mps" (f op (Call.torch TorchDevice.mps))
    else times
  let times :=
    if args.include_cuda then
      times_set times op_name "cuda" (f op (Call.torch TorchDevice.cuda))
    else times
  times

/-- The backend/device combinations `run` executes for a given configuration,
as (timing key, call descriptor) pairs, in the source's order. -/
def backend_combos (args : Args) : List (String × Call) :=
  (if args.include_mlx then
    [("mlx_gpu", Call.mlx MlxDevice.gpu false)]
    ++ (if args.compile then [("mlx_gpu_compile", Call.mlx MlxDevice.gpu true)] else [])
    ++ (if args.include_cpu then [("mlx_cpu", Call.mlx MlxDevice.cpu false)] else [])
  else [])
  ++ (if args.include_cpu then [("cpu", Call.torch TorchDevice.cpu)] else [])
  ++ (if args.include_mps then [("mps", Call.torch TorchDevice.mps)] else [])
  ++ (if args.include_cuda then [("cuda", Call.torch TorchDevice.cuda)] else [])

/-- Characterization of `run`: a single entry keyed by the operation label,
holding one (key, duration) pair per enabled combination, in order — or the
empty dict when no combination is enabled. -/
theorem run_eq (op : Op) (args : Args) (f : Op → Call → ℚ) :
    run op args f =
      if backend_combos args = [] then ([] : Times)
      else [(op_label op, (backend_combos args).map (fun kc => (kc.1, f op kc.2)))] := by
  obtain ⟨c, m, x, u, p⟩ := args
  cases c <;> cases m <;> cases x <;> cases u <;> cases p <;>
    simp [run, times_set, dset, agetD, aget, backend_combos]

/-- The timing keys of `backend_combos` never repeat. -/
theorem backend_combos_keys_nodup (args : Args) :
    ((backend_combos args).map Prod.fst).Nodup := by
  obtain ⟨c, m, x, u, p⟩ := args
  cases c <;> cases m <;> cases x <;> cases u <;> cases p <;> decide

/-- The call descriptors of `backend_combos` never repeat. -/
theorem backend_combos_calls_nodup (args : Args) :
    ((backend_combos args).map Prod.snd).Nodup := by
  obtain ⟨c, m, x, u, p⟩ := args
  cases c <;> cases m <;> cases x <;> cases u <;> cases p <;> decide

/-- `backend_combos` is nonempty exactly when some flag enabling a backend is
set. -/
theorem backend_combos_ne_nil (args : Args) :
    backend_combos args ≠ [] ↔
      (args.include_mlx = true ∨ args.include_cpu = true ∨
        args.include_mps = true ∨ args.include_cuda = true) := by
  obtain ⟨c, m, x, u, p⟩ := args
  cases c <;> cases m <;> cases x <;> cases u <;> cases p <;> simp [backend_combos]

/-- `defaultdict(list)` appending: `op_times[k].append(v)`
(run_benchmark.py, line 45). -/
def append_time : List (String × List ℚ) → String → ℚ → List (String × List ℚ)
  | [], k, v => [(k, [v])]
  | (k', vs) :: rest, k, v =>
      if k' = k then (k, vs ++ [v]) :: rest else (k', vs) :: append_time rest k v

/-- Per-operation accumulator of `run_processes`: the `op_times` sample lists
and the `op_name` variable (initialised to `None`, line 37). -/
structure OpAcc where
  op_times : List (String × List ℚ)
  op_name : Option String
deriving DecidableEq, Repr

/-- One trial of `run_processes`'s inner loop (lines 39-48): spawn a process
running `run(op, args, queue)`, get its `times` dict from the queue, join,
then append every backend's sample and remember the operation label.
`list(times.values())[0]` / `list(times.keys())[0]` raise IndexError when
`times` is empty (no backend enabled); that error case is modelled by the
`headD` default and is excluded by hypotheses wherever it matters. -/
def one_trial (op : Op) (args : Args) (f : Op → Call → ℚ) (acc : OpAcc) : OpAcc :=
  let times := run op args f
  let entry := times.headD ("", [])
  let op_times := entry.2.foldl (fun d p => append_time d p.1 p.2) acc.op_times
  { op_times := op_times, op_name := some entry.1 }

/-- The `for _ in range(iterations)` loop of `run_processes` (lines 39-48):
trial `t` measures with oracle `sample t`. -/
def trials_loop (op : Op) (args : Args) (sample : Nat → Op → Call → ℚ) : Nat → OpAcc
  | 0 => ⟨[], none⟩
  | Nat.succ t => one_trial op args (sample t) (trials_loop op args sample t)

/-- `np.mean` on a list of samples: sum divided by length. -/
def np_mean (v : List ℚ) : ℚ := v.sum / (v.length : ℚ)

/-- The outer `for op in operations` loop of `run_processes` (lines 36-57),
with the operation index `idx` threaded to index the sample oracle and
`all_times` the accumulated result dict.  After the trials of one operation,
every backend's sample list is reduced to its mean and stored under
`op_name` (lines 52-53); `del op; gc.collect()` only reclaims memory and has
no effect on the computed data. -/
def run_processes_from (args : Args) (sample : Nat → Nat → Op → Call → ℚ)
    (iterations : Nat) :
    List Op → Nat → List (Option String × List (String × ℚ)) →
      List (Option String × List (String × ℚ))
  | [], _, all_times => all_times
  | op :: rest, idx, all_times =>
      let acc := trials_loop op args (sample idx) iterations
      let op_times_mean := acc.op_times.map (fun kv => (kv.1, np_mean kv.2))
      run_processes_from args sample iterations rest (idx + 1)
        (dset all_times acc.op_name op_times_mean)

/-- `run_processes(operations, args, iterations)` (lines 25-57): the final
aggregated Timing Set `all_times` handed to `print_benchmark`. -/
def run_processes (operations : List Op) (args : Args)
    (sample : Nat → Nat → Op → Call → ℚ) (iterations : Nat) :
    List (Option String × List (String × ℚ)) :=
  run_processes_from args sample iterations operations 0 []

theorem aget_dset_self {K V : Type} [DecidableEq K] (d : List (K × V)) (k : K) (v : V) :
    aget (dset d k v) k = some v := by
  induction d with
  | nil => simp [dset, aget]
  | cons hd tl ih =>
      obtain ⟨k', v'⟩ := hd
      by_cases h : k' = k <;> simp [dset, aget, h, ih]

theorem aget_dset_ne {K V : Type} [DecidableEq K] (d : List (K × V)) (k k₁ : K) (v : V)
    (h : k₁ ≠ k) : aget (dset d k v) k₁ = aget d k₁ := by
  induction d with
  | nil => simp [dset, aget, Ne.symm h]
  | cons hd tl ih =>
      obtain ⟨k', v'⟩ := hd
      by_cases h' : k' = k
      · subst h'
        simp [dset, aget, Ne.symm h]
      · simp only [dset, if_neg h']
        by_cases h'' : k' = k₁ <;> simp [aget, h'', ih]

theorem keys_dset {K V : Type} [DecidableEq K] (d : List (K × V)) (k : K) (v : V) :
    (dset d k v).map Prod.fst =
      if k ∈ d.map Prod.fst then d.map Prod.fst else d.map Prod.fst ++ [k] := by
  induction d with
  | nil => simp [dset]
  | cons hd tl ih =>
      obtain ⟨k', v'⟩ := hd
      by_cases h : k' = k
      · subst h
        simp [dset]
      · simp only [dset, if_neg h, List.map_cons, List.mem_cons]
        rw [ih]
        by_cases hm : k ∈ tl.map Prod.fst
        · simp [hm]
        · simp [hm, Ne.symm h]

theorem keys_dset_nodup {K V : Type} [DecidableEq K] (d : List (K × V)) (k : K) (v : V)
    (h : (d.map Prod.fst).Nodup) : ((dset d k v).map Prod.fst).Nodup := by
  rw [keys_dset]
  by_cases hm : k ∈ d.map Prod.fst
  · simpa [hm] using h
  · rw [if_neg hm]
    simp only [List.nodup_append, List.nodup_singleton, true_and]
    refine ⟨h, ?_⟩
    intro a ha hb
    simp only [List.mem_singleton] at hb
    subst hb
    exact hm ha

theorem append_time_ne_head (k₀ : String) (vs : List ℚ) (d : List (String × List ℚ))
    (k : String) (v : ℚ) (h : k ≠ k₀) :
    append_time ((k₀, vs) :: d) k v = (k₀, vs) :: append_time d k v := by
  simp [append_time, Ne.symm h]

/-- Folding `append_time` over pairs whose keys all differ from the head key
leaves the head entry untouched. -/
theorem foldl_append_time_cons (ps : List (String × ℚ)) (k₀ : String) (vs : List ℚ) :
    ∀ d : List (String × List ℚ), (∀ p ∈ ps, p.1 ≠ k₀) →
      ps.foldl (fun d p => append_time d p.1 p.2) ((k₀, vs) :: d) =
        (k₀, vs) :: ps.foldl (fun d p => append_time d p.1 p.2) d := by
  induction ps with
  | nil => intro d _; rfl
  | cons p ps ih =>
      intro d hk
      simp only [List.foldl_cons]
      rw [append_time_ne_head _ _ _ _ _ (hk p (List.mem_cons_self p ps))]
      exact ih _ (fun q hq => hk q (List.mem_cons_of_mem p hq))

/-- Folding `append_time` over pairs with pairwise distinct keys into the
empty dict creates one singleton sample list per key, in order. -/
theorem foldl_append_time_nil (ps : List (String × ℚ)) (hnd : (ps.map Prod.fst).Nodup) :
    ps.foldl (fun d p => append_time d p.1 p.2) [] =
      ps.map (fun p => (p.1, [p.2])) := by
  induction ps with
  | nil => rfl
  | cons p ps ih =>
      simp only [List.map_cons, List.nodup_cons, List.mem_map] at hnd
      simp only [List.foldl_cons, append_time, List.map_cons]
      rw [foldl_append_time_cons]
      · rw [ih hnd.2]
      · intro q hq hq1
        exact hnd.1 ⟨q, hq, hq1⟩

/-- One round of appends on sample lists that already follow the key layout
of `L` extends every list by that round's sample. -/
theorem foldl_append_time_round (L : List (String × Call)) (g : String × Call → List ℚ)
    (h : String × Call → ℚ) (hnd : (L.map Prod.fst).Nodup) :
    (L.map (fun kc => (kc.1, h kc))).foldl (fun d p => append_time d p.1 p.2)
        (L.map (fun kc => (kc.1, g kc))) =
      L.map (fun kc => (kc.1, g kc ++ [h kc])) := by
  induction L with
  | nil => rfl
  | cons kc L ih =>
      simp only [List.map_cons, List.nodup_cons, List.mem_map] at hnd
      simp only [List.map_cons, List.foldl_cons, append_time, if_pos rfl, if_true]
      rw [foldl_append_time_cons]
      · rw [ih hnd.2]
      · intro q hq
        simp only [List.mem_map] at hq
        obtain ⟨kc', hkc', rfl⟩ := hq
        intro hq1
        exact hnd.1 ⟨kc', hkc', hq1⟩

/-- Closed form of the trial loop: after `iterations ≥ 1` trials, `op_times`
holds, per enabled backend key, the list of that backend's samples from
trials `0, …, iterations-1` in order, and `op_name` is the operation's
label. -/
theorem trials_loop_spec (op : Op) (args : Args) (sample : Nat → Op → Call → ℚ)
    (hc : backend_combos args ≠ []) :
    ∀ iterations : Nat, 0 < iterations →
      trials_loop op args sample iterations =
        ⟨(backend_combos args).map
            (fun kc => (kc.1, (List.range iterations).map (fun t => sample t op kc.2))),
          some (op_label op)⟩ := by
  intro iterations
  induction iterations with
  | zero => intro h; omega
  | succ t ih =>
      intro _
      rcases Nat.eq_zero_or_pos t with ht | ht
      · subst ht
        show one_trial op args (sample 0) ⟨[], none⟩ = _
        unfold one_trial
        rw [run_eq, if_neg hc]
        simp only [List.headD_cons]
        rw [foldl_append_time_nil]
        · simp only [List.map_map]
          congr 1
        · simpa [List.map_map, Function.comp] using backend_combos_keys_nodup args
      · show one_trial op args (sample t) (trials_loop op args sample t) = _
        rw [ih ht]
        unfold one_trial
        rw [run_eq, if_neg hc]
        simp only [List.headD_cons]
        rw [foldl_append_time_round _ _ _ (backend_combos_keys_nodup args)]
        simp only [List.range_succ, List.map_append, List.map_cons, List.map_nil]

/-- Processing further operations whose labels all differ from `key` leaves
the aggregated entry at `key` unchanged. -/
theorem run_processes_from_preserve (args : Args) (sample : Nat → Nat → Op → Call → ℚ)
    (iterations : Nat) (hit : 0 < iterations) (hc : backend_combos args ≠ []) :
    ∀ (ops : List Op) (idx : Nat) (acc : List (Option String × List (String × ℚ)))
      (key : Option String),
      (∀ op ∈ ops, (some (op_label op) : Option String) ≠ key) →
      aget (run_processes_from args sample iterations ops idx acc) key = aget acc key := by
  intro ops
  induction ops with
  | nil => intro idx acc key _; rfl
  | cons op rest ih =>
      intro idx acc key hk
      rw [run_processes_from]
      rw [ih _ _ _ (fun o ho => hk o (List.mem_cons_of_mem _ ho))]
      rw [trials_loop_spec op args (sample idx) hc iterations hit]
      exact aget_dset_ne _ _ _ _ (Ne.symm (hk op (List.mem_cons_self op rest)))

/-- After the whole outer loop, under pairwise distinct labels, the entry at
the label of the `j`-th operation is that operation's per-backend mean map. -/
theorem run_processes_from_lookup (args : Args) (sample : Nat → Nat → Op → Call → ℚ)
    (iterations : Nat) (hit : 0 < iterations) (hc : backend_combos args ≠ []) :
    ∀ (ops : List Op) (idx : Nat) (acc : List (Option String × List (String × ℚ)))
      (j : Nat) (hj : j < ops.length), (ops.map op_label).Nodup →
      aget (run_processes_from args sample iterations ops idx acc)
          (some (op_label (ops.get ⟨j, hj⟩))) =
        some ((backend_combos args).map
          (fun kc => (kc.1,
            np_mean ((List.range iterations).map
              (fun t => sample (idx + j) t (ops.get ⟨j, hj⟩) kc.2))))) := by
  intro ops
  induction ops with
  | nil =>
      intro idx acc j hj
      exact absurd hj (by simp)
  | cons op rest ih =>
      intro idx acc j hj hnd
      simp only [List.map_cons, List.nodup_cons, List.mem_map] at hnd
      match j with
      | 0 =>
          show aget (run_processes_from args sample iterations (op :: rest) idx acc)
              (some (op_label op)) = _
          rw [run_processes_from]
          rw [run_processes_from_preserve args sample iterations hit hc]
          · rw [trials_loop_spec op args (sample idx) hc iterations hit]
            simp only [List.map_map]
            rw [aget_dset_self]
            simp only [Nat.add_zero]
            rfl
          · intro o ho hsome
            apply hnd.1
            refine ⟨o, ho, ?_⟩
            exact (Option.some_injective _ hsome)
      | Nat.succ j' =>
          have hj' : j' < rest.length := Nat.lt_of_succ_lt_succ hj
          show aget (run_processes_from args sample iterations (op :: rest) idx acc)
              (some (op_label (rest.get ⟨j', hj'⟩))) = _
          rw [run_processes_from]
          rw [ih (idx + 1) _ j' hj' hnd.2]
          have harith : idx + 1 + j' = idx + (j' + 1) := by omega
          rw [harith]
          rfl

/-- Lookup in a dict built from distinct-keyed pairs returns the value of the
matching pair. -/
theorem aget_map_of_nodup {V : Type} :
    ∀ (L : List (String × Call)) (g : String × Call → V) (key : String) (c : Call),
      (L.map Prod.fst).Nodup → (key, c) ∈ L →
      aget (L.map (fun kc => (kc.1, g kc))) key = some (g (key, c)) := by
  intro L
  induction L with
  | nil => intro g key c _ hm; simp at hm
  | cons kc L ih =>
      intro g key c hnd hm
      simp only [List.map_cons, List.nodup_cons, List.mem_map] at hnd
      simp only [List.mem_cons] at hm
      by_cases hk : kc.1 = key
      · have hkc : kc = (key, c) := by
          rcases hm with h | h
          · exact h.symm
          · exact absurd ⟨(key, c), h, hk.symm⟩ hnd.1
        subst hkc
        simp [aget]
      · rcases hm with h | h
        · exact absurd (congrArg Prod.fst h.symm) hk
        · simp only [List.map_cons, aget, if_neg hk]
          exact ih g key c hnd.2 h

/-- A fixed catalogue operation used by concrete instances. -/
def matmulOp : Op := ⟨"MatMul", "32x1x1000 x 32x1000x128"⟩

/-- A second fixed operation with a different label. -/
def argmaxOp : Op := ⟨"Argmax", "64x1024x128, axis=0"⟩

/-- A Run Configuration with only CPU torch comparisons enabled. -/
def cpuOnlyArgs : Args := ⟨true, false, false, false, false⟩

/-- A Run Configuration with every backend disabled. -/
def allOffArgs : Args := ⟨false, false, false, false, false⟩

/-- A constant measurement oracle returning one second. -/
def oneSample : Nat → Nat → Op → Call → ℚ := fun _ _ _ _ => 1

/-- C1: for every operation O of the catalogue (labels pairwise distinct, as
the spec-modelled labels of the concrete catalogue are) and every backend
key B enabled by the configuration, after a completed run the aggregated
Timing Set maps O's label to a map holding exactly one value for B, and
that value is the arithmetic mean of exactly `iterations` per-trial samples
for (O, B), all positive whenever the measurement oracle is positive. -/
theorem c1_aggregated_mean (operations : List Op) (args : Args)
    (sample : Nat → Nat → Op → Call → ℚ) (iterations : Nat)
    (hit : 0 < iterations)
    (hnd : (operations.map op_label).Nodup)
    (hpos : ∀ i t op c, 0 < sample i t op c)
    (j : Nat) (hj : j < operations.length)
    (key : String) (c : Call) (hkc : (key, c) ∈ backend_combos args) :
    ∃ m, aget (run_processes operations args sample iterations)
        (some (op_label (operations.get ⟨j, hj⟩))) = some m ∧
      (m.map Prod.fst).count key = 1 ∧
      aget m key = some (np_mean ((List.range iterations).map
        (fun t => sample j t (operations.get ⟨j, hj⟩) c))) ∧
      ((List.range iterations).map
        (fun t => sample j t (operations.get ⟨j, hj⟩) c)).length = iterations ∧
      (∀ x ∈ (List.range iterations).map
        (fun t => sample j t (operations.get ⟨j, hj⟩) c), 0 < x) ∧
      np_mean ((List.range iterations).map
        (fun t => sample j t (operations.get ⟨j, hj⟩) c)) =
        ((List.range iterations).map
          (fun t => sample j t (operations.get ⟨j, hj⟩) c)).sum / (iterations : ℚ) := by
  have hc : backend_combos args ≠ [] := by
    intro h
    rw [h] at hkc
    simp at hkc
  refine ⟨(backend_combos args).map
    (fun kc => (kc.1, np_mean ((List.range iterations).map
      (fun t => sample j t (operations.get ⟨j, hj⟩) kc.2)))), ?_, ?_, ?_, ?_, ?_, ?_⟩
  · have := run_processes_from_lookup args sample iterations hit hc operations 0 [] j hj hnd
    unfold run_processes
    rw [this]
    simp only [Nat.zero_add]
  · simp only [List.map_map]
    have : (Prod.fst ∘ fun kc : String × Call =>
        (kc.1, np_mean ((List.range iterations).map
          (fun t => sample j t (operations.get ⟨j, hj⟩) kc.2)))) = Prod.fst := by
      funext kc
      rfl
    rw [this]
    exact List.count_eq_one_of_mem (backend_combos_keys_nodup args)
      (List.mem_map.mpr ⟨(key, c), hkc, rfl⟩)
  · exact aget_map_of_nodup (backend_combos args) _ key c
      (backend_combos_keys_nodup args) hkc
  · simp
  · intro x hx
    simp only [List.mem_map, List.mem_range] at hx
    obtain ⟨t, _, rfl⟩ := hx
    exact hpos _ _ _ _
  · simp [np_mean]

/-- C1 at a concrete input: one MatMul operation, CPU-only configuration,
two iterations of a constant positive oracle. -/
theorem c1_aggregated_mean_witness :
    ∃ m, aget (run_processes [matmulOp] cpuOnlyArgs oneSample 2)
        (some (op_label matmulOp)) = some m ∧
      (m.map Prod.fst).count "cpu" = 1 ∧
      aget m "cpu" = some (np_mean ((List.range 2).map
        (fun t => oneSample 0 t matmulOp (Call.torch TorchDevice.cpu)))) ∧
      ((List.range 2).map
        (fun t => oneSample 0 t matmulOp (Call.torch TorchDevice.cpu))).length = 2 ∧
      (∀ x ∈ (List.range 2).map
        (fun t => oneSample 0 t matmulOp (Call.torch TorchDevice.cpu)), 0 < x) ∧
      np_mean ((List.range 2).map
        (fun t => oneSample 0 t matmulOp (Call.torch TorchDevice.cpu))) =
        ((List.range 2).map
          (fun t => oneSample 0 t matmulOp (Call.torch TorchDevice.cpu))).sum / (2 : ℚ) := by
  exact c1_aggregated_mean [matmulOp] cpuOnlyArgs oneSample 2 (by decide)
    (by simp) (fun i t op c => by norm_num [oneSample]) 0 (by simp)
    "cpu" (Call.torch TorchDevice.cpu) (by decide)

theorem mem_keys_dset {K V : Type} [DecidableEq K] (d : List (K × V)) (k key : K) (v : V) :
    key ∈ (dset d k v).map Prod.fst ↔ key = k ∨ key ∈ d.map Prod.fst := by
  rw [keys_dset]
  by_cases hm : k ∈ d.map Prod.fst
  · rw [if_pos hm]
    constructor
    · intro h
      exact Or.inr h
    · rintro (rfl | h)
      · exact hm
      · exact h
  · rw [if_neg hm]
    rw [List.mem_append]
    constructor
    · rintro (h | h)
      · exact Or.inr h
      · exact Or.inl (List.mem_singleton.mp h)
    · rintro (rfl | h)
      · exact Or.inr (List.mem_singleton.mpr rfl)
      · exact Or.inl h

/-- The outer loop never duplicates a key of the aggregated Timing Set. -/
theorem run_processes_from_keys_nodup (args : Args) (sample : Nat → Nat → Op → Call → ℚ)
    (iterations : Nat) :
    ∀ (ops : List Op) (idx : Nat) (acc : List (Option String × List (String × ℚ))),
      (acc.map Prod.fst).Nodup →
      ((run_processes_from args sample iterations ops idx acc).map Prod.fst).Nodup := by
  intro ops
  induction ops with
  | nil => intro idx acc h; exact h
  | cons op rest ih =>
      intro idx acc h
      rw [run_processes_from]
      exact ih _ _ (keys_dset_nodup _ _ _ h)

/-- A key appears in the aggregated Timing Set exactly when it is the label of
one of the processed operations (given at least one trial and one enabled
backend, so that `op_name` is set to the operation's label). -/
theorem run_processes_from_mem_keys (args : Args) (sample : Nat → Nat → Op → Call → ℚ)
    (iterations : Nat) (hit : 0 < iterations) (hc : backend_combos args ≠ []) :
    ∀ (ops : List Op) (idx : Nat) (acc : List (Option String × List (String × ℚ)))
      (key : Option String),
      (key ∈ (run_processes_from args sample iterations ops idx acc).map Prod.fst ↔
        key ∈ acc.map Prod.fst ∨ ∃ op ∈ ops, key = some (op_label op)) := by
  intro ops
  induction ops with
  | nil =>
      intro idx acc key
      simp [run_processes_from]
  | cons op rest ih =>
      intro idx acc key
      rw [run_processes_from]
      rw [ih]
      rw [trials_loop_spec op args (sample idx) hc iterations hit]
      rw [mem_keys_dset]
      constructor
      · rintro ((rfl | h) | ⟨o, ho, rfl⟩)
        · exact Or.inr ⟨op, List.mem_cons_self op rest, rfl⟩
        · exact Or.inl h
        · exact Or.inr ⟨o, List.mem_cons_of_mem op ho, rfl⟩
      · rintro (h | ⟨o, ho, rfl⟩)
        · exact Or.inl (Or.inr h)
        · rcases List.mem_cons.mp ho with rfl | ho'
          · exact Or.inl (Or.inl rfl)
          · exact Or.inr ⟨o, ho', rfl⟩

/-- C10: when two catalogue operations share a label, the later operation's
aggregated means replace the earlier one's entry (computed from the later
operation's samples only, not a merge), and in general the final Timing Set
has exactly one entry per distinct label: its keys never repeat and a key is
present exactly when it is some processed operation's label. -/
theorem c10_label_collision (op1 op2 : Op) (args : Args)
    (sample : Nat → Nat → Op → Call → ℚ) (iterations : Nat)
    (hit : 0 < iterations) (hl : op_label op1 = op_label op2)
    (hc : backend_combos args ≠ []) :
    run_processes [op1, op2] args sample iterations =
      [(some (op_label op1), (backend_combos args).map
        (fun kc => (kc.1, np_mean ((List.range iterations).map
          (fun t => sample 1 t op2 kc.2)))))] ∧
    (∀ ops : List Op, ((run_processes ops args sample iterations).map Prod.fst).Nodup) ∧
    (∀ (ops : List Op) (key : Option String),
      key ∈ (run_processes ops args sample iterations).map Prod.fst ↔
        ∃ op ∈ ops, key = some (op_label op)) := by
  refine ⟨?_, ?_, ?_⟩
  · show run_processes_from args sample iterations [op1, op2] 0 [] = _
    simp only [run_processes_from]
    rw [trials_loop_spec op1 args (sample 0) hc iterations hit,
      trials_loop_spec op2 args (sample 1) hc iterations hit]
    simp only [List.map_map]
    simp [dset, hl]
  · intro ops
    exact run_processes_from_keys_nodup args sample iterations ops 0 [] (by simp)
  · intro ops key
    have := run_processes_from_mem_keys args sample iterations hit hc ops 0 [] key
    simpa using this

/-- C10 at a concrete input: two operations with the same label, one
CPU-only trial each; the final Timing Set holds the second operation's mean. -/
theorem c10_label_collision_witness :
    run_processes [matmulOp, matmulOp] cpuOnlyArgs
        (fun i t _ _ => (10 * i + t : ℚ)) 1 =
      [(some (op_label matmulOp), (backend_combos cpuOnlyArgs).map
        (fun kc => (kc.1, np_mean ((List.range 1).map
          (fun t => (10 * 1 + t : ℚ))))))] ∧
    (∀ ops : List Op, ((run_processes ops cpuOnlyArgs
        (fun i t _ _ => (10 * i + t : ℚ)) 1).map Prod.fst).Nodup) ∧
    (∀ (ops : List Op) (key : Option String),
      key ∈ (run_processes ops cpuOnlyArgs
          (fun i t _ _ => (10 * i + t : ℚ)) 1).map Prod.fst ↔
        ∃ op ∈ ops, key = some (op_label op)) := by
  exact c10_label_collision matmulOp matmulOp cpuOnlyArgs
    (fun i t _ _ => (10 * i + t : ℚ)) 1 (by decide) rfl (by decide)

/-- The backend keys of the single-iteration result (the keys of the inner
mapping of the executor's `times` dict; `[]` when `times` is empty). -/
def run_keys (op : Op) (args : Args) (f : Op → Call → ℚ) : List String :=
  ((run op args f).headD ("", [])).2.map Prod.fst

theorem run_keys_eq (op : Op) (args : Args) (f : Op → Call → ℚ) :
    run_keys op args f = (backend_combos args).map Prod.fst := by
  unfold run_keys
  rw [run_eq]
  by_cases hc : backend_combos args = []
  · simp [hc]
  · rw [if_neg hc]
    simp [List.map_map]

/-- C2: the backend keys of the single-iteration result are exactly
determined by the configuration flags — `mlx_gpu` iff MLX is enabled,
`mlx_gpu_compile` iff MLX and the compile flag, `mlx_cpu` iff MLX and CPU
comparisons, `cpu` iff CPU comparisons, `mps` iff the MPS backend, `cuda`
iff the CUDA backend — and they occur in that fixed order, the order of
`backend_combos`. -/
theorem c2_backend_matrix (op : Op) (args : Args) (f : Op → Call → ℚ) :
    (("mlx_gpu" ∈ run_keys op args f) ↔ args.include_mlx = true) ∧
    (("mlx_gpu_compile" ∈ run_keys op args f) ↔
      (args.include_mlx = true ∧ args.compile = true)) ∧
    (("mlx_cpu" ∈ run_keys op args f) ↔
      (args.include_mlx = true ∧ args.include_cpu = true)) ∧
    (("cpu" ∈ run_keys op args f) ↔ args.include_cpu = true) ∧
    (("mps" ∈ run_keys op args f) ↔ args.include_mps = true) ∧
    (("cuda" ∈ run_keys op args f) ↔ args.include_cuda = true) ∧
    run_keys op args f = (backend_combos args).map Prod.fst := by
  simp only [run_keys_eq]
  obtain ⟨c, m, x, u, p⟩ := args
  cases c <;> cases m <;> cases x <;> cases u <;> cases p <;> decide

/-- C3 counterexample: with every backend flag disabled the executor's output
is the empty mapping — zero top-level entries, not exactly one. -/
theorem c3_counterexample :
    ¬ (run matmulOp allOffArgs (fun _ _ => 1)).length = 1 := by
  decide

/-- C3 amended: whenever at least one backend flag is enabled, the executor's
output has exactly one top-level entry, keyed by the operation's label
(its kind and its parameter string joined by " / "), whose value is the
backend-keyed timing mapping of this iteration. -/
theorem c3_single_entry (op : Op) (args : Args) (f : Op → Call → ℚ)
    (h : args.include_mlx = true ∨ args.include_cpu = true ∨
      args.include_mps = true ∨ args.include_cuda = true) :
    run op args f =
      [(op_label op, (backend_combos args).map (fun kc => (kc.1, f op kc.2)))] ∧
    (run op args f).length = 1 ∧
    op_label op = op.typeName ++ " / " ++ op.args_str := by
  have hc : backend_combos args ≠ [] := (backend_combos_ne_nil args).mpr h
  rw [run_eq, if_neg hc]
  exact ⟨rfl, rfl, rfl⟩

/-- C3 amended claim at a concrete input: the MatMul operation under the
CPU-only configuration. -/
theorem c3_single_entry_witness :
    run matmulOp cpuOnlyArgs (fun _ _ => 1) =
      [(op_label matmulOp, (backend_combos cpuOnlyArgs).map
        (fun kc => (kc.1, (fun (_ : Op) (_ : Call) => (1 : ℚ)) matmulOp kc.2)))] ∧
    (run matmulOp cpuOnlyArgs (fun _ _ => 1)).length = 1 ∧
    op_label matmulOp = matmulOp.typeName ++ " / " ++ matmulOp.args_str := by
  exact c3_single_entry matmulOp cpuOnlyArgs (fun _ _ => 1) (by decide)

/-- The executor's result-channel behaviour (run_benchmark.py, lines 105-107):
`queue` is `none` for a synchronous in-process call and `some q` (the channel
with current contents `q`) inside an Execution Context.  The first component
is the value returned to the caller, the second the channel contents
afterwards (`[]` meaning no message was placed when no channel exists). -/
def run_queue (op : Op) (args : Args) (f : Op → Call → ℚ)
    (queue : Option (List Times)) : Option Times × List Times :=
  let times := run op args f
  match queue with
  | none => (some times, [])
  | some q => (none, q ++ [times])

/-- C8: called without a result channel, the executor returns the Timing Set
fragment directly and puts nothing on any channel; called with a channel, it
puts exactly the fragment on the channel and returns nothing. -/
theorem c8_queue_protocol (op : Op) (args : Args) (f : Op → Call → ℚ) :
    run_queue op args f none = (some (run op args f), []) ∧
    ∀ q, run_queue op args f (some q) = (none, q ++ [run op args f]) :=
  ⟨rfl, fun _ => rfl⟩

/-- Observable orchestration events of one run of `run_processes`
(lines 34-48).  Per trial of each operation the orchestrator executes, in
program order: `p.start()` (`spawn`), then blocks on `queue.get()`; the
child process runs `run(op, args, queue)` which ends with `queue.put(times)`
(`put`); the blocking `queue.get()` then returns (`get`) — necessarily after
the put, since the queue starts empty and its only producer is the child's
single put; then `p.join()` returns (`join`); then the returned samples are
appended into `op_times` (`record`).  Because the orchestrator blocks on the
get and the join before its loop continues, this sequential trace is the
only possible interleaving of orchestrator and child events. -/
inductive Event where
  | spawn (opIdx trial : Nat)
  | put (opIdx trial : Nat)
  | get (opIdx trial : Nat)
  | join (opIdx trial : Nat)
  | record (opIdx trial : Nat)
deriving DecidableEq, Repr

/-- The events of the trial numbered `t` of the operation numbered `i`, in
order of occurrence. -/
def trial_events (i t : Nat) : List Event :=
  [Event.spawn i t, Event.put i t, Event.get i t, Event.join i t, Event.record i t]

/-- The (operation index, trial index) pairs of a run over `n` operations
with `iterations` trials each, in orchestration order: the outer loop walks
the catalogue, the inner loop the trials. -/
def trials_seq (n iterations : Nat) : List (Nat × Nat) :=
  (List.range n).flatMap (fun i => (List.range iterations).map (fun t => (i, t)))

/-- The event trace generated by a sequence of trials. -/
def ev_trace (bs : List (Nat × Nat)) : List Event :=
  bs.flatMap (fun b => trial_events b.1 b.2)

/-- The full event trace of `run_processes` over `n` operations and
`iterations` trials per operation. -/
def bench_trace (n iterations : Nat) : List Event :=
  ev_trace (trials_seq n iterations)

/-- The (operation index, trial index) stamp of an event. -/
def ev_id : Event → Nat × Nat
  | Event.spawn i t => (i, t)
  | Event.put i t => (i, t)
  | Event.get i t => (i, t)
  | Event.join i t => (i, t)
  | Event.record i t => (i, t)

def is_spawn : Event → Bool
  | Event.spawn _ _ => true
  | _ => false

def is_put : Event → Bool
  | Event.put _ _ => true
  | _ => false

def is_get : Event → Bool
  | Event.get _ _ => true
  | _ => false

def is_join : Event → Bool
  | Event.join _ _ => true
  | _ => false

/-- Strict lexicographic order on (operation index, trial index). -/
def lexLt (p q : Nat × Nat) : Prop := p.1 < q.1 ∨ (p.1 = q.1 ∧ p.2 < q.2)

/-- Weak lexicographic order on (operation index, trial index). -/
def lexLe (p q : Nat × Nat) : Prop := p.1 < q.1 ∨ (p.1 = q.1 ∧ p.2 ≤ q.2)

theorem ev_trace_cons (b : Nat × Nat) (bs : List (Nat × Nat)) :
    ev_trace (b :: bs) =
      Event.spawn b.1 b.2 :: Event.put b.1 b.2 :: Event.get b.1 b.2 ::
        Event.join b.1 b.2 :: Event.record b.1 b.2 :: ev_trace bs := rfl

theorem ev_id_of_mem_trial (b : Nat × Nat) (e : Event)
    (he : e ∈ trial_events b.1 b.2) : ev_id e = b := by
  simp only [trial_events, List.mem_cons, List.not_mem_nil, or_false] at he
  rcases he with rfl | rfl | rfl | rfl | rfl <;> rfl

theorem lexLt_le {p q : Nat × Nat} (h : lexLt p q) : lexLe p q := by
  rcases h with h | ⟨h1, h2⟩
  · exact Or.inl h
  · exact Or.inr ⟨h1, Nat.le_of_lt h2⟩

theorem lexLt_ne {p q : Nat × Nat} (h : lexLt p q) : p ≠ q := by
  rintro rfl
  rcases h with h | ⟨_, h⟩ <;> omega

/-- Events of one run are ordered by their (operation, trial) stamps: the
trace never interleaves a later trial or a later operation before an earlier
one. -/
theorem ev_trace_pairwise (bs : List (Nat × Nat)) (h : bs.Pairwise lexLt) :
    (ev_trace bs).Pairwise (fun e e' => lexLe (ev_id e) (ev_id e')) := by
  induction bs with
  | nil => exact List.Pairwise.nil
  | cons b bs ih =>
      obtain ⟨hhead, htail⟩ := List.pairwise_cons.mp h
      have hsplit : ev_trace (b :: bs) = trial_events b.1 b.2 ++ ev_trace bs := rfl
      rw [hsplit, List.pairwise_append]
      refine ⟨?_, ih htail, ?_⟩
      · simp [trial_events, List.pairwise_cons, ev_id, lexLe]
      · intro e he e' he'
        obtain ⟨b', hb', he''⟩ := List.mem_flatMap.mp he'
        rw [ev_id_of_mem_trial b e he, ev_id_of_mem_trial b' e' he'']
        exact lexLt_le (hhead b' hb')

theorem trials_seq_succ (n iterations : Nat) :
    trials_seq (n + 1) iterations =
      trials_seq n iterations ++ (List.range iterations).map (fun t => (n, t)) := by
  unfold trials_seq
  rw [List.range_succ, List.flatMap_append]
  simp

theorem trials_seq_mem (n iterations i t : Nat) :
    (i, t) ∈ trials_seq n iterations ↔ i < n ∧ t < iterations := by
  unfold trials_seq
  simp only [List.mem_flatMap, List.mem_map, List.mem_range, Prod.mk.injEq]
  constructor
  · rintro ⟨a, ha, b, hb, rfl, rfl⟩
    exact ⟨ha, hb⟩
  · rintro ⟨hi, ht⟩
    exact ⟨i, hi, t, ht, rfl, rfl⟩

/-- The trial sequence is strictly lexicographically ordered: the outer loop
advances the operation index, the inner loop the trial index. -/
theorem trials_seq_pairwise (n iterations : Nat) :
    (trials_seq n iterations).Pairwise lexLt := by
  induction n with
  | zero => exact List.Pairwise.nil
  | succ n ih =>
      rw [trials_seq_succ, List.pairwise_append]
      refine ⟨ih, ?_, ?_⟩
      · rw [List.pairwise_map]
        refine (List.pairwise_lt_range iterations).imp ?_
        intro a b hab
        exact Or.inr ⟨rfl, hab⟩
      · intro p hp q hq
        obtain ⟨hi, _⟩ := (trials_seq_mem n iterations p.1 p.2).mp (by simpa using hp)
        obtain ⟨b, _, rfl⟩ := List.mem_map.mp hq
        exact Or.inl hi

theorem trials_seq_nodup (n iterations : Nat) : (trials_seq n iterations).Nodup :=
  (trials_seq_pairwise n iterations).imp lexLt_ne

theorem count_nodup_one {α : Type} [BEq α] [LawfulBEq α] (l : List α) (hnd : l.Nodup)
    (a : α) (ha : a ∈ l) : l.count a = 1 := by
  induction l with
  | nil => simp at ha
  | cons b l ih =>
      simp only [List.nodup_cons] at hnd
      rw [List.count_cons]
      rcases List.mem_cons.mp ha with rfl | ha'
      · rw [List.count_eq_zero.mpr hnd.1]
        simp
      · rw [ih hnd.2 ha']
        have hne : a ≠ b := by
          rintro rfl
          exact hnd.1 ha'
        simp [hne, Ne.symm hne]

theorem trials_seq_count (n iterations i t : Nat) (hi : i < n) (ht : t < iterations) :
    (trials_seq n iterations).count (i, t) = 1 :=
  count_nodup_one _ (trials_seq_nodup n iterations) _
    ((trials_seq_mem n iterations i t).mpr ⟨hi, ht⟩)

/-- Each operation index below `n` owns exactly `iterations` trials of the
trial sequence. -/
theorem trials_seq_countP_fst (n iterations i : Nat) (hi : i < n) :
    (trials_seq n iterations).countP (fun b => b.1 == i) = iterations := by
  induction n with
  | zero => omega
  | succ n ih =>
      rw [trials_seq_succ, List.countP_append]
      rcases Nat.lt_succ_iff_lt_or_eq.mp hi with h | rfl
      · rw [ih h]
        have hz : ((List.range iterations).map (fun t => (n, t))).countP
            (fun b => b.1 == i) = 0 := by
          rw [List.countP_eq_zero]
          intro p hp
          obtain ⟨b, _, rfl⟩ := List.mem_map.mp hp
          simp only [beq_iff_eq]
          omega
        rw [hz]
        omega
      · have hz : (trials_seq i iterations).countP (fun b => b.1 == i) = 0 := by
          rw [List.countP_eq_zero]
          intro p hp
          have := (trials_seq_mem i iterations p.1 p.2).mp (by simpa using hp)
          simp only [beq_iff_eq]
          omega
        rw [hz, Nat.zero_add, List.countP_map]
        have : ((fun b : Nat × Nat => b.1 == i) ∘ fun t => (i, t)) =
            fun _ => true := by
          funext t
          simp
        rw [this]
        simp

theorem ev_trace_filter_spawn (bs : List (Nat × Nat)) :
    (ev_trace bs).filter is_spawn = bs.map (fun b => Event.spawn b.1 b.2) := by
  induction bs with
  | nil => rfl
  | cons b bs ih =>
      rw [ev_trace_cons]
      simp only [List.filter_cons]
      simp [is_spawn, ih]

theorem ev_trace_filter_sj (bs : List (Nat × Nat)) :
    (ev_trace bs).filter (fun e => is_spawn e || is_join e) =
      bs.flatMap (fun b => [Event.spawn b.1 b.2, Event.join b.1 b.2]) := by
  induction bs with
  | nil => rfl
  | cons b bs ih =>
      have hsplit : ev_trace (b :: bs) = trial_events b.1 b.2 ++ ev_trace bs := rfl
      rw [hsplit, List.filter_append, ih]
      rfl

theorem ev_trace_filter_pgj (bs : List (Nat × Nat)) :
    (ev_trace bs).filter (fun e => is_put e || is_get e || is_join e) =
      bs.flatMap (fun b => [Event.put b.1 b.2, Event.get b.1 b.2, Event.join b.1 b.2]) := by
  induction bs with
  | nil => rfl
  | cons b bs ih =>
      have hsplit : ev_trace (b :: bs) = trial_events b.1 b.2 ++ ev_trace bs := rfl
      rw [hsplit, List.filter_append, ih]
      rfl

theorem take_five_cons (a1 a2 a3 a4 a5 : Event) (l : List Event) (n : Nat) :
    (a1 :: a2 :: a3 :: a4 :: a5 :: l).take (n + 5) =
      a1 :: a2 :: a3 :: a4 :: a5 :: l.take n := rfl

theorem take_one_cons (a1 a2 a3 a4 a5 : Event) (l : List Event) :
    (a1 :: a2 :: a3 :: a4 :: a5 :: l).take 1 = [a1] := rfl

theorem take_two_cons (a1 a2 a3 a4 a5 : Event) (l : List Event) :
    (a1 :: a2 :: a3 :: a4 :: a5 :: l).take 2 = [a1, a2] := rfl

theorem take_three_cons (a1 a2 a3 a4 a5 : Event) (l : List Event) :
    (a1 :: a2 :: a3 :: a4 :: a5 :: l).take 3 = [a1, a2, a3] := rfl

theorem take_four_cons (a1 a2 a3 a4 a5 : Event) (l : List Event) :
    (a1 :: a2 :: a3 :: a4 :: a5 :: l).take 4 = [a1, a2, a3, a4] := rfl

/-- Prefix invariants of the trace: the number of started-but-not-yet-joined
contexts never exceeds one, and the consumer never gets ahead of the
producer on the queue. -/
theorem ev_trace_take_counts (bs : List (Nat × Nat)) :
    ∀ k, (((ev_trace bs).take k).countP is_spawn ≤
        ((ev_trace bs).take k).countP is_join + 1) ∧
      (((ev_trace bs).take k).countP is_get ≤ ((ev_trace bs).take k).countP is_put) := by
  induction bs with
  | nil =>
      intro k
      simp [ev_trace]
  | cons b bs ih =>
      intro k
      rw [ev_trace_cons]
      match k with
      | 0 => simp
      | 1 => rw [take_one_cons]; simp [List.countP_cons, is_spawn, is_put, is_get, is_join]
      | 2 => rw [take_two_cons]; simp [List.countP_cons, is_spawn, is_put, is_get, is_join]
      | 3 => rw [take_three_cons]; simp [List.countP_cons, is_spawn, is_put, is_get, is_join]
      | 4 => rw [take_four_cons]; simp [List.countP_cons, is_spawn, is_put, is_get, is_join]
      | (n + 5) =>
          rw [take_five_cons]
          obtain ⟨h1, h2⟩ := ih n
          simp only [List.countP_cons, is_spawn, is_put, is_get, is_join]
          constructor <;> simp <;> omega

/-- A prefix of the trace at a multiple of five events is the trace of the
corresponding prefix of the trial sequence. -/
theorem ev_trace_take_blocks (m : Nat) :
    ∀ bs : List (Nat × Nat), (ev_trace bs).take (5 * m) = ev_trace (bs.take m) := by
  induction m with
  | zero => intro bs; simp [ev_trace]
  | succ m ih =>
      intro bs
      match bs with
      | [] => simp [ev_trace]
      | b :: bs =>
          rw [ev_trace_cons]
          have h5 : 5 * (m + 1) = 5 * m + 5 := by omega
          rw [h5, take_five_cons, ih bs, List.take_succ_cons, ev_trace_cons]

theorem ev_trace_countP_put_len (bs : List (Nat × Nat)) :
    (ev_trace bs).countP is_put = bs.length := by
  induction bs with
  | nil => rfl
  | cons b bs ih =>
      rw [ev_trace_cons]
      simp [List.countP_cons, is_put, ih]

theorem ev_trace_countP_get_len (bs : List (Nat × Nat)) :
    (ev_trace bs).countP is_get = bs.length := by
  induction bs with
  | nil => rfl
  | cons b bs ih =>
      rw [ev_trace_cons]
      simp [List.countP_cons, is_get, ih]

theorem ev_trace_count_spawn (bs : List (Nat × Nat)) (i t : Nat) :
    (ev_trace bs).count (Event.spawn i t) = bs.count (i, t) := by
  induction bs with
  | nil => rfl
  | cons b bs ih =>
      obtain ⟨bi, bt⟩ := b
      rw [ev_trace_cons, List.count_cons, List.count_cons, List.count_cons,
        List.count_cons, List.count_cons, List.count_cons, ih]
      by_cases hb : (i, t) = (bi, bt)
      · obtain ⟨rfl, rfl⟩ := Prod.mk.injEq i t bi bt ▸ hb
        simp [Prod.ext_iff]
      · have : ¬ (Event.spawn i t = Event.spawn bi bt) := by
          intro hcon
          apply hb
          obtain ⟨h1, h2⟩ := Event.spawn.injEq i t bi bt ▸ hcon
          simp [h1, h2]
        simp only [beq_iff_eq]
        simp [this, hb]

theorem ev_trace_count_put (bs : List (Nat × Nat)) (i t : Nat) :
    (ev_trace bs).count (Event.put i t) = bs.count (i, t) := by
  induction bs with
  | nil => rfl
  | cons b bs ih =>
      obtain ⟨bi, bt⟩ := b
      rw [ev_trace_cons, List.count_cons, List.count_cons, List.count_cons,
        List.count_cons, List.count_cons, List.count_cons, ih]
      by_cases hb : (i, t) = (bi, bt)
      · obtain ⟨rfl, rfl⟩ := Prod.mk.injEq i t bi bt ▸ hb
        simp [Prod.ext_iff]
      · have : ¬ (Event.put i t = Event.put bi bt) := by
          intro hcon
          apply hb
          obtain ⟨h1, h2⟩ := Event.put.injEq i t bi bt ▸ hcon
          simp [h1, h2]
        simp only [beq_iff_eq]
        simp [this, hb]

theorem ev_trace_count_get (bs : List (Nat × Nat)) (i t : Nat) :
    (ev_trace bs).count (Event.get i t) = bs.count (i, t) := by
  induction bs with
  | nil => rfl
  | cons b bs ih =>
      obtain ⟨bi, bt⟩ := b
      rw [ev_trace_cons, List.count_cons, List.count_cons, List.count_cons,
        List.count_cons, List.count_cons, List.count_cons, ih]
      by_cases hb : (i, t) = (bi, bt)
      · obtain ⟨rfl, rfl⟩ := Prod.mk.injEq i t bi bt ▸ hb
        simp [Prod.ext_iff]
      · have : ¬ (Event.get i t = Event.get bi bt) := by
          intro hcon
          apply hb
          obtain ⟨h1, h2⟩ := Event.get.injEq i t bi bt ▸ hcon
          simp [h1, h2]
        simp only [beq_iff_eq]
        simp [this, hb]

/-- C4: the run's event trace is ordered by (operation index, trial index):
all `iterations` trials of an operation — including the `record` events that
append its samples — occur strictly before any event of the next operation,
operations are processed in catalogue order, and each operation below `n`
owns exactly `iterations` spawned trials. -/
theorem c4_catalogue_order (n iterations : Nat) :
    (bench_trace n iterations).Pairwise
      (fun e e' => lexLe (ev_id e) (ev_id e')) ∧
    ∀ i, i < n →
      ((bench_trace n iterations).filter is_spawn).countP
        (fun e => (ev_id e).1 == i) = iterations := by
  constructor
  · exact ev_trace_pairwise _ (trials_seq_pairwise n iterations)
  · intro i hi
    show ((ev_trace (trials_seq n iterations)).filter is_spawn).countP
      (fun e => (ev_id e).1 == i) = iterations
    rw [ev_trace_filter_spawn, List.countP_map]
    have hcomp : ((fun e => (ev_id e).1 == i) ∘
        fun b : Nat × Nat => Event.spawn b.1 b.2) = fun b => b.1 == i := by
      funext b
      rfl
    rw [hcomp]
    exact trials_seq_countP_fst n iterations i hi

/-- C5: at most one Execution Context is alive at any time — in every prefix
of the trace the number of spawns exceeds the number of joins by at most
one; the subsequence of spawn/join events alternates per trial (each context
is joined before the next is created); and each trial spawns exactly one
fresh context. -/
theorem c5_one_context_at_a_time (n iterations : Nat) :
    (∀ k, ((bench_trace n iterations).take k).countP is_spawn ≤
        ((bench_trace n iterations).take k).countP is_join + 1) ∧
    ((bench_trace n iterations).filter (fun e => is_spawn e || is_join e) =
      (trials_seq n iterations).flatMap
        (fun b => [Event.spawn b.1 b.2, Event.join b.1 b.2])) ∧
    (∀ i t, i < n → t < iterations →
      (bench_trace n iterations).count (Event.spawn i t) = 1) := by
  refine ⟨fun k => (ev_trace_take_counts _ k).1, ev_trace_filter_sj _, ?_⟩
  intro i t hi ht
  show (ev_trace (trials_seq n iterations)).count (Event.spawn i t) = 1
  rw [ev_trace_count_spawn]
  exact trials_seq_count n iterations i t hi ht

/-- C6: per trial exactly one message is put on the result channel and
exactly one is taken; in the put/get/join subsequence every get follows its
put and precedes its join (the orchestrator receives the result before
waiting for termination); the channel is empty at every trial boundary; and
the consumer never gets ahead of the producer. -/
theorem c6_channel_protocol (n iterations : Nat) :
    (∀ i t, i < n → t < iterations →
      (bench_trace n iterations).count (Event.put i t) = 1 ∧
      (bench_trace n iterations).count (Event.get i t) = 1) ∧
    ((bench_trace n iterations).filter (fun e => is_put e || is_get e || is_join e) =
      (trials_seq n iterations).flatMap
        (fun b => [Event.put b.1 b.2, Event.get b.1 b.2, Event.join b.1 b.2])) ∧
    (∀ m, ((bench_trace n iterations).take (5 * m)).countP is_put =
        ((bench_trace n iterations).take (5 * m)).countP is_get) ∧
    (∀ k, ((bench_trace n iterations).take k).countP is_get ≤
        ((bench_trace n iterations).take k).countP is_put) := by
  refine ⟨?_, ev_trace_filter_pgj _, ?_, fun k => (ev_trace_take_counts _ k).2⟩
  · intro i t hi ht
    constructor
    · show (ev_trace (trials_seq n iterations)).count (Event.put i t) = 1
      rw [ev_trace_count_put]
      exact trials_seq_count n iterations i t hi ht
    · show (ev_trace (trials_seq n iterations)).count (Event.get i t) = 1
      rw [ev_trace_count_get]
      exact trials_seq_count n iterations i t hi ht
  · intro m
    show ((ev_trace (trials_seq n iterations)).take (5 * m)).countP is_put =
      ((ev_trace (trials_seq n iterations)).take (5 * m)).countP is_get
    rw [ev_trace_take_blocks, ev_trace_countP_put_len, ev_trace_countP_get_len]

/-- Hardware availability as reported by `torch.cuda.is_available()` and
`torch.backends.mps.is_available()`. -/
structure Env where
  cuda_available : Bool
  mps_available : Bool
deriving DecidableEq, Repr

/-- Startup of run_benchmark.py's `__main__` block (lines 110-125 and the
final call, line 215): after parsing `args`, `assert torch.cuda.is_available()`
when CUDA is requested (message "CUDA device not found."), then
`assert torch.backends.mps.is_available()` when MPS is requested (message
"MPS backend not available."), then — only if both prechecks pass —
`run_processes(operations, args)` runs, producing its event trace and its
aggregated Timing Set.  A failed assertion is the `Except.error` carrying
the assertion message; no trace and no result exist in that case. -/
def main_run (args : Args) (env : Env) (operations : List Op)
    (sample : Nat → Nat → Op → Call → ℚ) (iterations : Nat) :
    Except String (List Event × List (Option String × List (String × ℚ))) :=
  if args.include_cuda && !env.cuda_available then
    Except.error "CUDA device not found."
  else if args.include_mps && !env.mps_available then
    Except.error "MPS backend not available."
  else
    Except.ok (bench_trace operations.length iterations,
      run_processes operations args sample iterations)

/-- C7: if the CUDA backend is requested but unavailable, or the MPS backend
is requested but unavailable, startup fails with a descriptive assertion
message, and no event trace and no result exist — no Execution Context is
created and no trial is attempted. -/
theorem c7_startup_precheck (args : Args) (env : Env) (operations : List Op)
    (sample : Nat → Nat → Op → Call → ℚ) (iterations : Nat)
    (h : (args.include_cuda = true ∧ env.cuda_available = false) ∨
      (args.include_mps = true ∧ env.mps_available = false)) :
    ∃ msg, main_run args env operations sample iterations = Except.error msg ∧
      (msg = "CUDA device not found." ∨ msg = "MPS backend not available.") ∧
      msg ≠ "" ∧
      ∀ trace result, main_run args env operations sample iterations ≠
        Except.ok (trace, result) := by
  unfold main_run
  by_cases hcuda : (args.include_cuda && !env.cuda_available) = true
  · rw [if_pos hcuda]
    exact ⟨"CUDA device not found.", rfl, Or.inl rfl, by decide, fun _ _ => by simp⟩
  · rw [if_neg hcuda]
    have hmps : (args.include_mps && !env.mps_available) = true := by
      rcases h with ⟨h1, h2⟩ | ⟨h1, h2⟩
      · exact absurd (by rw [h1, h2]; rfl) hcuda
      · rw [h1, h2]
        rfl
    rw [if_pos hmps]
    exact ⟨"MPS backend not available.", rfl, Or.inr rfl, by decide, fun _ _ => by simp⟩

/-- A configuration requesting the CUDA backend. -/
def cudaArgs : Args := ⟨true, false, false, true, false⟩

/-- An environment with neither CUDA nor MPS hardware. -/
def noHwEnv : Env := ⟨false, false⟩

/-- C7 at a concrete input: CUDA requested on a machine without it. -/
theorem c7_startup_precheck_witness :
    ∃ msg, main_run cudaArgs noHwEnv [matmulOp] oneSample 5 = Except.error msg ∧
      (msg = "CUDA device not found." ∨ msg = "MPS backend not available.") ∧
      msg ≠ "" ∧
      ∀ trace result, main_run cudaArgs noHwEnv [matmulOp] oneSample 5 ≠
        Except.ok (trace, result) := by
  exact c7_startup_precheck cudaArgs noHwEnv [matmulOp] oneSample 5
    (Or.inl ⟨rfl, rfl⟩)

/-- Execution state of the fallible single-iteration executor: the backend
calls issued so far, the inner timing dict built so far, and the pending
raised error, if any. -/
structure RState where
  log : List Call
  times : List (String × ℚ)
  err : Option String
deriving DecidableEq, Repr

/-- One (conditional) backend invocation of the fallible executor.  When no
error is pending, the call is issued: on failure the raised error is
remembered (the remaining statements of `run` are then never reached), on
success the elapsed time is recorded under `key`.  When an error is pending
the statement is skipped entirely: no call, no timing, no retry. -/
def callRec (f : Op → Call → Except String ℚ) (op : Op) (st : RState)
    (key : String) (c : Call) : RState :=
  match st.err with
  | some _ => st
  | none =>
      match f op c with
      | Except.error e => { st with log := st.log ++ [c], err := some e }
      | Except.ok t => { st with log := st.log ++ [c], times := dset st.times key t }

/-- The fallible single-iteration executor: `run` (lines 65-103) where every
`op.run(...)` invocation may raise.  It mirrors `run` statement by
statement; an exception aborts the rest of the function body. -/
def runE (op : Op) (args : Args) (f : Op → Call → Except String ℚ) : RState :=
  let st : RState := ⟨[], [], none⟩
  let st :=
    if args.include_mlx then
      let st := callRec f op st "mlx_gpu" (Call.mlx MlxDevice.gpu false)
      let st :=
        if args.compile then
          callRec f op st "mlx_gpu_compile" (Call.mlx MlxDevice.gpu true)
        else st
      let st :=
        if args.include_cpu then
          callRec f op st "mlx_cpu" (Call.mlx MlxDevice.cpu false)
        else st
      st
    else st
  let st :=
    if args.include_cpu then callRec f op st "cpu" (Call.torch TorchDevice.cpu) else st
  let st :=
    if args.include_mps then callRec f op st "mps" (Call.torch TorchDevice.mps) else st
  let st :=
    if args.include_cuda then callRec f op st "cuda" (Call.torch TorchDevice.cuda) else st
  st

/-- What the caller of the executor observes: the raised error, or on success
the backend-keyed timings of this iteration. -/
def run_result (op : Op) (args : Args) (f : Op → Call → Except String ℚ) :
    Except String (List (String × ℚ)) :=
  match (runE op args f).err with
  | some e => Except.error e
  | none => Except.ok (runE op args f).times

theorem runE_eq_fold (op : Op) (args : Args) (f : Op → Call → Except String ℚ) :
    runE op args f =
      (backend_combos args).foldl (fun st kc => callRec f op st kc.1 kc.2)
        ⟨[], [], none⟩ := by
  obtain ⟨c, m, x, u, p⟩ := args
  cases c <;> cases m <;> cases x <;> cases u <;> cases p <;> rfl

/-- The fallible executor agrees with `run` when no call raises. -/
theorem runE_of_ok (op : Op) (args : Args) (g : Op → Call → ℚ) :
    runE op args (fun o c => Except.ok (g o c)) =
      ⟨(backend_combos args).map Prod.snd,
        (backend_combos args).map (fun kc => (kc.1, g op kc.2)), none⟩ := by
  obtain ⟨c, m, x, u, p⟩ := args
  cases c <;> cases m <;> cases x <;> cases u <;> cases p <;>
    simp [runE, callRec, dset, backend_combos]

/-- Once an error is pending, the remaining statements do nothing. -/
theorem foldl_callRec_stuck (f : Op → Call → Except String ℚ) (op : Op) (e : String) :
    ∀ (L : List (String × Call)) (st : RState), st.err = some e →
      L.foldl (fun st kc => callRec f op st kc.1 kc.2) st = st := by
  intro L
  induction L with
  | nil => intro st _; rfl
  | cons kc L ih =>
      intro st hst
      simp only [List.foldl_cons]
      rw [show callRec f op st kc.1 kc.2 = st from by simp [callRec, hst]]
      exact ih st hst

/-- Successful statements log each call once, record its timing, and leave no
pending error. -/
theorem foldl_callRec_ok (f : Op → Call → Except String ℚ) (op : Op) :
    ∀ (pre : List (String × Call)) (st : RState), st.err = none →
      (∀ p ∈ pre, ∃ t, f op p.2 = Except.ok t) →
      ∃ d : List (String × ℚ),
        pre.foldl (fun st kc => callRec f op st kc.1 kc.2) st =
          ⟨st.log ++ pre.map Prod.snd, d, none⟩ ∧
        ∀ k, k ∈ d.map Prod.fst →
          k ∈ st.times.map Prod.fst ∨ k ∈ pre.map Prod.fst := by
  intro pre
  induction pre with
  | nil =>
      intro st hst _
      refine ⟨st.times, ?_, ?_⟩
      · simp only [List.map_nil, List.append_nil, List.foldl_nil]
        obtain ⟨l, d, er⟩ := st
        simp only at hst
        rw [hst]
      · intro k hk
        exact Or.inl hk
  | cons kc pre ih =>
      intro st hst hok
      obtain ⟨t, ht⟩ := hok kc (List.mem_cons_self kc pre)
      have hstep : callRec f op st kc.1 kc.2 =
          { st with log := st.log ++ [kc.2], times := dset st.times kc.1 t } := by
        simp [callRec, hst, ht]
      simp only [List.foldl_cons]
      rw [hstep]
      obtain ⟨d, hfold, hkeys⟩ := ih
        { st with log := st.log ++ [kc.2], times := dset st.times kc.1 t } hst
        (fun p hp => hok p (List.mem_cons_of_mem kc hp))
      refine ⟨d, ?_, ?_⟩
      · rw [hfold]
        simp
      · intro k hk
        rcases hkeys k hk with hk' | hk'
        · simp only at hk'
          rcases (mem_keys_dset st.times kc.1 k t).mp hk' with rfl | hk''
          · exact Or.inr (by simp)
          · exact Or.inl hk''
        · exact Or.inr (List.mem_cons_of_mem _ (by simpa using hk'))

/-- C9: if some enabled backend invocation fails — the first failing one in
execution order, all earlier ones succeeding — the executor stops at it: the
error propagates to the caller, every call up to and including the failing
one was issued exactly once (no retries), no later call is issued, and no
timing is recorded for the failing backend. -/
theorem c9_failure_propagates (op : Op) (args : Args)
    (f : Op → Call → Except String ℚ)
    (pre : List (String × Call)) (key : String) (c : Call)
    (post : List (String × Call)) (e : String)
    (hsplit : backend_combos args = pre ++ (key, c) :: post)
    (hok : ∀ p ∈ pre, ∃ t, f op p.2 = Except.ok t)
    (hfail : f op c = Except.error e) :
    (runE op args f).err = some e ∧
    (runE op args f).log = pre.map Prod.snd ++ [c] ∧
    (runE op args f).log.Nodup ∧
    key ∉ (runE op args f).times.map Prod.fst ∧
    run_result op args f = Except.error e := by
  obtain ⟨d, hfold, hkeys⟩ := foldl_callRec_ok f op pre ⟨[], [], none⟩ rfl hok
  have hkeypre : key ∉ pre.map Prod.fst := by
    have hnd := backend_combos_keys_nodup args
    rw [hsplit] at hnd
    simp only [List.map_append, List.map_cons] at hnd
    obtain ⟨-, -, hdisj⟩ := List.pairwise_append.mp hnd
    intro hmem
    exact hdisj key hmem key (List.mem_cons_self _ _) rfl
  have hrunE : runE op args f = ⟨pre.map Prod.snd ++ [c], d, some e⟩ := by
    rw [runE_eq_fold, hsplit, List.foldl_append, hfold]
    show ((key, c) :: post).foldl (fun st kc => callRec f op st kc.1 kc.2)
        ⟨pre.map Prod.snd, d, none⟩ = ⟨pre.map Prod.snd ++ [c], d, some e⟩
    rw [List.foldl_cons]
    have hstep : callRec f op ⟨pre.map Prod.snd, d, none⟩ (key, c).1 (key, c).2 =
        ⟨pre.map Prod.snd ++ [c], d, some e⟩ := by
      simp [callRec, hfail]
    rw [hstep]
    exact foldl_callRec_stuck f op e post _ rfl
  refine ⟨by rw [hrunE], by rw [hrunE], ?_, ?_, ?_⟩
  · rw [hrunE]
    have hnd := backend_combos_calls_nodup args
    rw [hsplit] at hnd
    simp only [List.map_append, List.map_cons] at hnd
    have hsub : (pre.map Prod.snd ++ [c]).Sublist
        (pre.map Prod.snd ++ c :: post.map Prod.snd) := by
      apply List.Sublist.append_left
      exact List.cons_sublist_cons.mpr (List.nil_sublist _)
    exact hnd.sublist hsub
  · rw [hrunE]
    intro hmem
    rcases hkeys key hmem with hk | hk
    · simp at hk
    · exact hkeypre hk
  · unfold run_result
    rw [hrunE]

/-- C9 at a concrete input: the CPU-only configuration with an oracle whose
only enabled call raises. -/
theorem c9_failure_propagates_witness :
    (runE matmulOp cpuOnlyArgs (fun _ _ => Except.error "boom")).err = some "boom" ∧
    (runE matmulOp cpuOnlyArgs (fun _ _ => Except.error "boom")).log =
      ([] : List (String × Call)).map Prod.snd ++ [Call.torch TorchDevice.cpu] ∧
    (runE matmulOp cpuOnlyArgs (fun _ _ => Except.error "boom")).log.Nodup ∧
    "cpu" ∉ (runE matmulOp cpuOnlyArgs
      (fun _ _ => Except.error "boom")).times.map Prod.fst ∧
    run_result matmulOp cpuOnlyArgs (fun _ _ => Except.error "boom") =
      Except.error "boom" := by
  exact c9_failure_propagates matmulOp cpuOnlyArgs (fun _ _ => Except.error "boom")
    [] "cpu" (Call.torch TorchDevice.cpu) [] "boom" (by decide) (by simp) rfl
